import Mathlib

/-!
Verification of the EdDSA signature module (`src/zokrates/eddsa.py`)
over the BabyJubJub group collaborator.

The repository's protocol layer (`eddsa.py`) is embedded faithfully below.
Its collaborators — the twisted-Edwards group (`babyjubjub.py`), the field
element type (`field.py`) and the canonical byte encoder (`utils.to_bytes`) —
are not part of the protocol source; following the specification they are
treated as an abstract collaborator: a `Collab` record bundling the hash
primitive, the canonical encoders and the two order constants, over an
arbitrary additive commutative group `G` whose scalar multiplication is the
group-theoretic `n • p`.
-/

namespace EdDSA

/-- The value stored in the `fe` slot of a `PrivateKey`.  The source stores
either an `FQ` field element (as the test suite constructs keys) or a raw
Python `int` (as `PrivateKey.from_rand` constructs them); the distinction
matters because `sign` reads the attribute `self.fe.n`, which only an `FQ`
possesses. -/
inductive FeVal where
  | fq (n : Nat)
  | int (n : Nat)
deriving DecidableEq, Repr

/-- The integer value of the stored scalar (an `FQ`'s `.n` field, or the raw
integer itself); this is what the collaborator's scalar multiplication and
canonical encoding consume. -/
def FeVal.value : FeVal → Nat
  | .fq n => n
  | .int n => n

/-- Python attribute access `self.fe.n`: defined on an `FQ`, an
`AttributeError` (here `none`) on a plain `int`. -/
def FeVal.attr_n : FeVal → Option Nat
  | .fq n => some n
  | .int _ => none

/-- The `PrivateKey` namedtuple, wrapping the field `fe`. -/
structure PrivateKey where
  fe : FeVal
deriving DecidableEq, Repr

/-- The `PublicKey` namedtuple, wrapping an Edwards point `p`. -/
structure PublicKey (G : Type) where
  p : G
deriving DecidableEq

/-- An argument passed to the variadic `hash_to_scalar` / `to_bytes`: the
source passes field-element-or-int scalars, points, `PublicKey` namedtuples
and raw message bytes. -/
inductive HArg (G : Type) where
  | fe (v : FeVal)
  | point (p : G)
  | pub (a : PublicKey G)
  | msg (bytes : List Nat)

/-- Modelled from the spec: the external collaborator consumed by the
protocol layer (spec section 6), bundling the fixed 256-bit hash primitive
(`hashlib.sha256` digest read as an unsigned integer), the canonical
fixed-width byte encodings for scalars and points (`utils.to_bytes`, not
under `src/`), the scalar-arithmetic order `JUBJUB_E` and the subgroup
order `JUBJUB_L` (both from `babyjubjub.py`, not under `src/`). -/
structure Collab (G : Type) where
  sha256 : List Nat → Nat
  encScalar : Nat → List Nat
  encPoint : G → List Nat
  E : Nat
  L : Nat

variable {G : Type} [AddCommGroup G]

/-- Modelled from the spec: the scalar multiplication `Point.mult` of the
group collaborator (`babyjubjub.py`, not under `src/`): multiplication of a
point by an arbitrary non-negative integer, with reduction modulo the
group's order happening implicitly because the group is finite (spec
sections 4.1 and 6); an `FQ` scalar argument is consumed through its
integer value. -/
def Point.mult (p : G) (n : Nat) : G := n • p

/-- Modelled from the spec: the canonical byte encoder `utils.to_bytes`
(not under `src/`): each value is converted to its canonical fixed-width
byte encoding; a field element encodes through its canonical integer value,
a namedtuple (such as a `PublicKey`) encodes as the concatenation of its
components, so a `PublicKey` encodes exactly as its point; raw message
bytes pass through unchanged (spec sections 4.1 and 9). -/
def to_bytes (C : Collab G) : HArg G → List Nat
  | .fe v => C.encScalar v.value
  | .point p => C.encPoint p
  | .pub a => C.encPoint a.p
  | .msg bytes => bytes

/-- The oracle `hash_to_scalar(*args)`: concatenate the canonical byte encodings of
the arguments in order, hash with SHA-256, and read the digest as an
unsigned integer.  No modular reduction is applied. -/
def hash_to_scalar (C : Collab G) (args : List (HArg G)) : Nat :=
  C.sha256 ((args.map (to_bytes C)).flatten)

/-- The argument of `PublicKey.from_private`: either a `PrivateKey`
instance or a bare scalar value (the source wraps the latter with
`PrivateKey(sk)` when `isinstance(sk, PrivateKey)` fails). -/
inductive SkArg where
  | priv (k : PrivateKey)
  | raw (v : FeVal)

/-- The derivation `PublicKey.from_private(sk, B)`: wrap a bare value into a
`PrivateKey`, then return `B.mult(sk.fe)`. -/
def PublicKey.from_private (sk : SkArg) (B : G) : PublicKey G :=
  let k : PrivateKey := match sk with
    | .priv k => k
    | .raw v => ⟨v⟩
  ⟨Point.mult B k.fe.value⟩

/-- Signing, `PrivateKey.sign(msg, B)`: compute `A = PublicKey.from_private(self)`,
the nonce `r = hash_to_scalar(self.fe, M)`, `R = B.mult(r)`, the challenge
`hRAM = hash_to_scalar(R, A, M)`, then `key_field = self.fe.n` — an
`AttributeError` (`none`) when `fe` is a raw `int` — and
`S = (r + key_field * hRAM) % JUBJUB_E`. -/
def PrivateKey.sign (key : PrivateKey) (C : Collab G) (M : List Nat) (B : G) :
    Option (G × Nat) :=
  let A := PublicKey.from_private (.priv key) B
  let r := hash_to_scalar C [.fe key.fe, .msg M]
  let R := Point.mult B r
  let hRAM := hash_to_scalar C [.point R, .pub A, .msg M]
  match key.fe.attr_n with
  | none => none
  | some key_field => some (R, (r + key_field * hRAM) % C.E)

/-- Verification, `PublicKey.verify(sig, msg, B)`, on a well-formed pair `(R, S)`:
`lhs = B.mult(S)`, `hRAM = hash_to_scalar(R, A, M)` with `A = self.p`,
`rhs = R + A.mult(hRAM)`, return `lhs == rhs`. -/
def PublicKey.verify [DecidableEq G] (pk : PublicKey G) (C : Collab G)
    (sig : G × Nat) (M : List Nat) (B : G) : Bool :=
  let R := sig.1
  let S := sig.2
  let A := pk.p
  let lhs := Point.mult B S
  let hRAM := hash_to_scalar C [.point R, .point A, .msg M]
  let rhs := R + Point.mult A hRAM
  decide (lhs = rhs)

/-- A Python value that can appear as a component of the `sig` argument of
`verify`: a curve point, an integer, or the argument tuple's shape itself
(as a list of components).  `verify` begins with the tuple unpacking
`R, S = sig`, which raises `ValueError` unless `sig` has exactly two
components; a non-point first component or non-integer second component
raises `TypeError` inside the collaborator's arithmetic. -/
inductive PyVal (G : Type) where
  | pt (p : G)
  | int (n : Nat)

/-- The entry of `PublicKey.verify` as the source executes it on a dynamically typed
`sig` argument: the unpacking `R, S = sig` raises `ValueError` for a tuple
whose length is not 2; `B.mult(S)` and `R + A.mult(hRAM)` raise `TypeError`
when `S` is not an integer or `R` is not a point; only a well-formed pair
reaches the boolean comparison. -/
def PublicKey.verifyDyn [DecidableEq G] (pk : PublicKey G) (C : Collab G)
    (sig : List (PyVal G)) (M : List Nat) (B : G) : Except String Bool :=
  match sig with
  | [.pt R, .int S] => .ok (pk.verify C (R, S) M B)
  | [_, _] => .error "TypeError"
  | _ => .error "ValueError: not a pair"

/-- The byte count `nbytes = ceil(ceil(log2(mod)) / 8) + 1` from `PrivateKey.from_rand`,
with `ceil(log2 mod)` taken exactly as `Nat.clog 2 mod` (the source
computes it through `math.log2` on a float; the exact ceiling models the
intended value). -/
def nbytes (mod : Nat) : Nat := (Nat.clog 2 mod + 7) / 8 + 1

/-- Python `int.from_bytes(bs, "little")`: little-endian interpretation of a byte
string as an unsigned integer. -/
def fromLittleEndian : List Nat → Nat
  | [] => 0
  | b :: bs => b + 256 * fromLittleEndian bs

/-- Key generation, `PrivateKey.from_rand()`: draw `nbytes` bytes from the entropy source,
read them little-endian, and store the raw integer (not an `FQ`) as `fe`.
`mod` is `JUBJUB_L`; the entropy source `urandom` is modelled as a stream
of bytes, of which exactly the first `nbytes` are consumed. -/
def PrivateKey.from_rand (mod : Nat) (urandom : Nat → Nat) : PrivateKey :=
  ⟨.int (fromLittleEndian (((List.range (nbytes mod))).map urandom))⟩

/-- A concrete instantiation of the collaborator over the cyclic group
`ZMod 5` with scalar-arithmetic order `E = 40 = 8 * 5`, mirroring the
cofactor structure `JUBJUB_E = 8 * JUBJUB_L`; used to evaluate the
definitions on concrete inputs. -/
def Zc : Collab (ZMod 5) where
  sha256 := fun s => s.sum % 97
  encScalar := fun n => [n % 256]
  encPoint := fun p => [p.val, 17]
  E := 40
  L := 5

/-- In a finite-order situation (`E • B = 0`), reducing a scalar modulo
`E` does not change the multiple of `B`; this is the collaborator property
that makes the reduction of `S` modulo `JUBJUB_E` sound. -/
theorem nsmul_mod_cancel {B : G} {E : Nat} (hE : E • B = 0) (n : Nat) :
    (n % E) • B = n • B := by
  conv_rhs => rw [← Nat.div_add_mod n E]
  rw [add_nsmul, mul_nsmul, hE, nsmul_zero, zero_add]

/-- Unfolding of `verify` on a well-formed pair: it returns `true` exactly
when the verification equation holds. -/
theorem verify_true_iff [DecidableEq G] (C : Collab G) (pk : PublicKey G)
    (R : G) (S : Nat) (M : List Nat) (B : G) :
    pk.verify C (R, S) M B = true ↔
      Point.mult B S =
        R + Point.mult pk.p (hash_to_scalar C [.point R, .point pk.p, .msg M]) := by
  simp [PublicKey.verify]

/-- C1: for every secret scalar `k` and every message `M`, verifying with
the public key derived from `k` accepts the signature produced by signing
`M` with `k`: `Verify(DerivePublic(k), Sign(k, M), M)` returns `true`.
The hypothesis `hE` is the collaborator fact that `JUBJUB_E` annihilates
the generator (the group's order divides `E`). -/
theorem sign_verify_roundtrip [DecidableEq G] (C : Collab G) (B : G)
    (hE : C.E • B = (0 : G)) (k : Nat) (M : List Nat) :
    ((⟨.fq k⟩ : PrivateKey).sign C M B).map
      (fun sig => (PublicKey.from_private (.priv ⟨.fq k⟩) B).verify C sig M B)
      = some true := by
  simp only [PrivateKey.sign, PublicKey.from_private, FeVal.attr_n, FeVal.value,
    Option.map, Option.some.injEq]
  rw [verify_true_iff]
  simp only [hash_to_scalar, to_bytes, List.map, FeVal.value, Point.mult]
  rw [nsmul_mod_cancel hE, add_nsmul, mul_nsmul]

/-- C1 witness: the round-trip evaluated in the concrete collaborator
`Zc`, secret scalar 2, message `[3]`. -/
theorem sign_verify_roundtrip_witness :
    Zc.E • (1 : ZMod 5) = 0 ∧
      ((⟨.fq 2⟩ : PrivateKey).sign Zc [3] 1).map
        (fun sig => (PublicKey.from_private (.priv ⟨.fq 2⟩) (1 : ZMod 5)).verify Zc sig [3] 1)
        = some true :=
  ⟨by decide, sign_verify_roundtrip Zc 1 (by decide) 2 [3]⟩

/-- C2: `verify` returns `true` exactly when `generator * S` equals
`R + A * h` in the group, where `h` is the scalar hash of the sequence
`(R, A, M)`; the verifier consumes only the public key `pk` — no secret
key occurs among `verify`'s inputs. -/
theorem verify_iff_equation [DecidableEq G] (C : Collab G) (pk : PublicKey G)
    (R : G) (S : Nat) (M : List Nat) (B : G) :
    pk.verify C (R, S) M B = true ↔
      Point.mult B S =
        R + Point.mult pk.p (hash_to_scalar C [.point R, .point pk.p, .msg M]) :=
  verify_true_iff C pk R S M B

/-- C3: on a field-element secret key `k`, `sign` returns `(R, S)` where
`r` is the unreduced scalar hash of `(k, M)`, `R = B * r`, `h` is the
scalar hash of `(R, A, M)` with `A` the derived public key, and
`S = (r + k * h) % E` with `k` entering the product raw and only the final
sum reduced; consequently `S < E`. -/
theorem sign_equation (C : Collab G) (B : G) (hE : 0 < C.E) (k : Nat)
    (M : List Nat) :
    ∃ R S, (⟨.fq k⟩ : PrivateKey).sign C M B = some (R, S) ∧
      R = Point.mult B (hash_to_scalar C [.fe (.fq k), .msg M]) ∧
      S = (hash_to_scalar C [.fe (.fq k), .msg M] +
            k * hash_to_scalar C
              [.point R, .pub (PublicKey.from_private (.priv ⟨.fq k⟩) B),
               .msg M]) % C.E ∧
      S < C.E :=
  ⟨_, _, rfl, rfl, rfl, Nat.mod_lt _ hE⟩

/-- C3 witness: the signing equation evaluated in the concrete
collaborator `Zc`, secret scalar 2, message `[3]`. -/
theorem sign_equation_witness :
    0 < Zc.E ∧
      ∃ R S, (⟨.fq 2⟩ : PrivateKey).sign Zc [3] (1 : ZMod 5) = some (R, S) ∧
        R = Point.mult 1 (hash_to_scalar Zc [.fe (.fq 2), .msg [3]]) ∧
        S = (hash_to_scalar Zc [.fe (.fq 2), .msg [3]] +
              2 * hash_to_scalar Zc
                [.point R, .pub (PublicKey.from_private (.priv ⟨.fq 2⟩) 1),
                 .msg [3]]) % Zc.E ∧
        S < Zc.E :=
  ⟨by decide, sign_equation Zc 1 (by decide) 2 [3]⟩

omit [AddCommGroup G] in
/-- C4: the scalar-hash oracle concatenates the canonical byte encodings
of its arguments in order with no separators, hashes with the 256-bit
primitive, returns the digest as an unsigned integer below `2 ^ 256`,
applies no modular reduction, and is deterministic: identical argument
sequences yield identical output. -/
theorem hash_to_scalar_spec (C : Collab G)
    (hsha : ∀ s, C.sha256 s < 2 ^ 256) (args args' : List (HArg G))
    (hargs : args = args') :
    hash_to_scalar C args = C.sha256 ((args.map (to_bytes C)).flatten) ∧
      hash_to_scalar C args < 2 ^ 256 ∧
      hash_to_scalar C args = hash_to_scalar C args' :=
  ⟨rfl, hsha _, by rw [hargs]⟩

/-- C4 witness: the oracle contract evaluated in the concrete collaborator
`Zc` on the argument list `[msg [1, 2]]`. -/
theorem hash_to_scalar_spec_witness :
    (∀ s, Zc.sha256 s < 2 ^ 256) ∧
      (hash_to_scalar Zc [.msg [1, 2]] =
          Zc.sha256 ((([.msg [1, 2]] : List (HArg (ZMod 5))).map
            (to_bytes Zc)).flatten) ∧
        hash_to_scalar Zc [.msg [1, 2]] < 2 ^ 256 ∧
        hash_to_scalar Zc [.msg [1, 2]] = hash_to_scalar Zc [.msg [1, 2]]) := by
  have hsha : ∀ s, Zc.sha256 s < 2 ^ 256 := fun s =>
    lt_trans (Nat.mod_lt _ (by norm_num)) (by norm_num)
  exact ⟨hsha, hash_to_scalar_spec Zc hsha [.msg [1, 2]] [.msg [1, 2]] rfl⟩

/-- C5 counterexample: a malformed signature of the wrong shape (a
three-component tuple) makes `verify` raise `ValueError` at the unpacking
`R, S = sig` instead of returning `false`. -/
theorem verify_malformed_shape_raises :
    (⟨1⟩ : PublicKey (ZMod 5)).verifyDyn Zc [.int 0, .int 0, .int 0] [] 1 =
      Except.error "ValueError: not a pair" := rfl

/-- C5 amended: `verify` never raises on a well-formed signature pair (a
group point and an integer scalar) — a failing equation yields the value
`false`, not an exception — but a signature whose shape is not a pair
raises an exception rather than returning `false`. -/
theorem verify_wellformed_total [DecidableEq G] (C : Collab G)
    (pk : PublicKey G) (R : G) (S : Nat) (M : List Nat) (B : G)
    (sig : List (PyVal G)) (hlen : sig.length ≠ 2) :
    pk.verifyDyn C [.pt R, .int S] M B = .ok (pk.verify C (R, S) M B) ∧
      ∃ e, pk.verifyDyn C sig M B = .error e := by
  refine ⟨rfl, ?_⟩
  match sig, hlen with
  | [], _ => exact ⟨_, rfl⟩
  | [x], _ => cases x <;> exact ⟨_, rfl⟩
  | [x, y], h => exact absurd rfl h
  | x :: y :: z :: t, _ => cases x <;> cases y <;> exact ⟨_, rfl⟩

/-- C5 witness: the amended statement evaluated in the concrete
collaborator `Zc` on a well-formed pair and an empty (malformed) tuple. -/
theorem verify_wellformed_total_witness :
    ([] : List (PyVal (ZMod 5))).length ≠ 2 ∧
      ((⟨1⟩ : PublicKey (ZMod 5)).verifyDyn Zc [.pt 1, .int 3] [2] 1 =
          .ok ((⟨1⟩ : PublicKey (ZMod 5)).verify Zc (1, 3) [2] 1) ∧
        ∃ e, (⟨1⟩ : PublicKey (ZMod 5)).verifyDyn Zc [] [2] 1 = .error e) :=
  ⟨by decide, verify_wellformed_total Zc ⟨1⟩ 1 3 [2] 1 [] (by decide)⟩

/-- C6: a `PrivateKey` produced by `from_rand` stores a raw integer in
`fe`, so `sign` fails on it for every message: the attribute access
`self.fe.n` has no meaning on a plain `int` (`AttributeError`), although
the class docstring says `fe` wraps a field element and the spec promises
signing never fails for numeric secret keys. -/
theorem sign_from_rand_fails (C : Collab G) (mod : Nat)
    (urandom : Nat → Nat) (M : List Nat) (B : G) :
    (PrivateKey.from_rand mod urandom).sign C M B = none := rfl

/-- C8: signing and verification are deterministic pure functions of their
inputs — two invocations on equal inputs return equal results; the only
randomness in the module is the entropy draw inside `from_rand`. -/
theorem sign_verify_deterministic [DecidableEq G] (C : Collab G) (B : G)
    (key key' : PrivateKey) (M M' : List Nat) (pk : PublicKey G)
    (sig : G × Nat) (hk : key = key') (hM : M = M') :
    key.sign C M B = key'.sign C M' B ∧
      pk.verify C sig M B = pk.verify C sig M' B := by
  subst hk; subst hM; exact ⟨rfl, rfl⟩

/-- C8 witness: determinism evaluated in the concrete collaborator `Zc`. -/
theorem sign_verify_deterministic_witness :
    (⟨.fq 2⟩ : PrivateKey) = ⟨.fq 2⟩ ∧ ([3] : List Nat) = [3] ∧
      ((⟨.fq 2⟩ : PrivateKey).sign Zc [3] (1 : ZMod 5) =
          (⟨.fq 2⟩ : PrivateKey).sign Zc [3] 1 ∧
        (⟨1⟩ : PublicKey (ZMod 5)).verify Zc (1, 37) [3] 1 =
          (⟨1⟩ : PublicKey (ZMod 5)).verify Zc (1, 37) [3] 1) :=
  ⟨rfl, rfl, sign_verify_deterministic Zc 1 ⟨.fq 2⟩ ⟨.fq 2⟩ [3] [3] ⟨1⟩ (1, 37)
    rfl rfl⟩

/-- C10: `from_private` accepts either a `PrivateKey` or a bare scalar
value, silently wrapping the latter, and in both cases returns the base
point `B` scalar-multiplied by the stored scalar. -/
theorem from_private_wraps (B : G) (v : FeVal) (k : PrivateKey) :
    PublicKey.from_private (.raw v) B = ⟨Point.mult B v.value⟩ ∧
      PublicKey.from_private (.priv k) B = ⟨Point.mult B k.fe.value⟩ ∧
      PublicKey.from_private (.raw v) B = PublicKey.from_private (.priv ⟨v⟩) B :=
  ⟨rfl, rfl, rfl⟩

/-- A byte string of valid bytes reads little-endian to an integer below
`256 ^ length`. -/
theorem fromLittleEndian_lt (bs : List Nat) (h : ∀ b ∈ bs, b < 256) :
    fromLittleEndian bs < 256 ^ bs.length := by
  induction bs with
  | nil => simp [fromLittleEndian]
  | cons b bs ih =>
    have hb : b < 256 := h b (by simp)
    have ht : fromLittleEndian bs < 256 ^ bs.length :=
      ih (fun x hx => h x (by simp [hx]))
    simp only [fromLittleEndian, List.length_cons, pow_succ]
    omega

/-- The all-`0xff` byte string reads little-endian to `256 ^ n - 1`. -/
theorem fromLittleEndian_replicate (n : Nat) :
    fromLittleEndian (List.replicate n 255) = 256 ^ n - 1 := by
  induction n with
  | zero => rfl
  | succ n ih =>
    have h1 : 1 ≤ 256 ^ n := Nat.one_le_pow _ _ (by norm_num)
    simp only [List.replicate, fromLittleEndian, ih, pow_succ]
    omega

/-- C9: key generation draws exactly `nbytes = ceil(ceil(log2 L) / 8) + 1`
bytes (the result depends only on that prefix of the entropy stream and
the drawn list has that length), reads them as a little-endian unsigned
integer, and stores the raw integer without range reduction; the secret is
below `2 ^ (8 * nbytes)` and can exceed the order `L` (witnessed by the
all-`0xff` draw). -/
theorem from_rand_spec (mod : Nat) (hmod : 1 ≤ mod) (u u' : Nat → Nat)
    (hu : ∀ i, u i < 256) (hagree : ∀ i, i < nbytes mod → u i = u' i) :
    (PrivateKey.from_rand mod u).fe =
        .int (fromLittleEndian ((List.range (nbytes mod)).map u)) ∧
      ((List.range (nbytes mod)).map u).length = nbytes mod ∧
      (PrivateKey.from_rand mod u).fe.value < 2 ^ (8 * nbytes mod) ∧
      PrivateKey.from_rand mod u = PrivateKey.from_rand mod u' ∧
      ∃ v : Nat → Nat, (∀ i, v i < 256) ∧
        mod ≤ (PrivateKey.from_rand mod v).fe.value := by
  have h256 : (256 : Nat) ^ nbytes mod = 2 ^ (8 * nbytes mod) := by
    rw [pow_mul]; norm_num
  refine ⟨rfl, by simp, ?_, ?_, ?_⟩
  · show fromLittleEndian ((List.range (nbytes mod)).map u) < _
    have := fromLittleEndian_lt ((List.range (nbytes mod)).map u)
      (by intro b hb; obtain ⟨i, _, rfl⟩ := List.mem_map.mp hb; exact hu i)
    rwa [List.length_map, List.length_range, h256] at this
  · show PrivateKey.mk _ = PrivateKey.mk _
    have : (List.range (nbytes mod)).map u = (List.range (nbytes mod)).map u' :=
      List.map_congr_left (fun i hi => hagree i (List.mem_range.mp hi))
    rw [this]
  · refine ⟨fun _ => 255, fun _ => by norm_num, ?_⟩
    have hv : (PrivateKey.from_rand mod (fun _ => 255)).fe.value =
        256 ^ nbytes mod - 1 := by
      show fromLittleEndian ((List.range (nbytes mod)).map (fun _ => 255)) = _
      rw [List.map_const', List.length_range, fromLittleEndian_replicate]
    have hclog : mod ≤ 2 ^ Nat.clog 2 mod := Nat.le_pow_clog (by norm_num) mod
    have h8 : Nat.clog 2 mod + 8 ≤ 8 * nbytes mod := by
      simp only [nbytes]; omega
    have hpow : 2 ^ (Nat.clog 2 mod + 8) ≤ 2 ^ (8 * nbytes mod) :=
      Nat.pow_le_pow_right (by norm_num) h8
    have hsplit : 2 ^ (Nat.clog 2 mod + 8) = 256 * 2 ^ Nat.clog 2 mod := by
      rw [pow_add]; ring
    rw [hv, h256]
    omega

/-- C9 witness: the key-generation contract evaluated at `mod = 5` with
the constant entropy stream `7, 7, ...` (so `nbytes 5 = 2` bytes drawn). -/
theorem from_rand_spec_witness :
    1 ≤ 5 ∧ (∀ i : Nat, (fun _ : Nat => 7) i < 256) ∧
      ((PrivateKey.from_rand 5 (fun _ => 7)).fe =
          .int (fromLittleEndian ((List.range (nbytes 5)).map (fun _ => 7))) ∧
        ((List.range (nbytes 5)).map (fun _ => 7)).length = nbytes 5 ∧
        (PrivateKey.from_rand 5 (fun _ => 7)).fe.value < 2 ^ (8 * nbytes 5) ∧
        PrivateKey.from_rand 5 (fun _ => 7) = PrivateKey.from_rand 5 (fun _ => 7) ∧
        ∃ v : Nat → Nat, (∀ i, v i < 256) ∧
          5 ≤ (PrivateKey.from_rand 5 v).fe.value) :=
  ⟨by decide, fun _ => by norm_num,
    from_rand_spec 5 (by decide) (fun _ => 7) (fun _ => 7)
      (fun _ => by norm_num) (fun _ _ => rfl)⟩

/-- C7 counterexample: two distinct raw secret integers that agree modulo
the generator's order derive the same public key, so the signature of one
verifies under the public key derived from the other: with `k1 = 1` and
`k2 = 6` over the concrete collaborator `Zc` (generator of order 5),
`Verify(DerivePublic(k2), Sign(k1, M), M)` is `true`, not `false`. -/
theorem cross_key_accept_example :
    (1 : Nat) ≠ 6 ∧
      ((⟨.fq 1⟩ : PrivateKey).sign Zc [] (1 : ZMod 5)).map
        (fun sig =>
          (PublicKey.from_private (.priv ⟨.fq 6⟩) (1 : ZMod 5)).verify Zc sig [] 1)
        = some true :=
  ⟨by decide, by decide⟩

/-- C7 amended: verifying `Sign(k1, M)` under `DerivePublic(k2)` succeeds
exactly when `k1 * h1 ≡ k2 * h2` modulo the order of the generator, where
`h1` and `h2` are the challenge hashes under the two public keys; so
rejection is governed by that congruence, and mere distinctness of the raw
integers `k1 ≠ k2` does not imply rejection (in particular `k1 ≡ k2`
modulo the generator's order is always accepted). -/
theorem cross_key_verify_iff [DecidableEq G] (C : Collab G) (B : G)
    (hE : C.E • B = (0 : G)) (k1 k2 : Nat) (M : List Nat) :
    ((⟨.fq k1⟩ : PrivateKey).sign C M B).map
      (fun sig => (PublicKey.from_private (.priv ⟨.fq k2⟩) B).verify C sig M B)
      = some true ↔
      k1 * hash_to_scalar C
          [.point (Point.mult B (hash_to_scalar C [.fe (.fq k1), .msg M])),
           .pub (PublicKey.from_private (.priv ⟨.fq k1⟩) B), .msg M] ≡
        k2 * hash_to_scalar C
          [.point (Point.mult B (hash_to_scalar C [.fe (.fq k1), .msg M])),
           .point (PublicKey.from_private (.priv ⟨.fq k2⟩) B).p, .msg M]
        [MOD addOrderOf B] := by
  simp only [PrivateKey.sign, PublicKey.from_private, FeVal.attr_n, FeVal.value,
    Option.map, Option.some.injEq]
  rw [verify_true_iff]
  simp only [hash_to_scalar, to_bytes, List.map, FeVal.value, Point.mult]
  rw [nsmul_mod_cancel hE, add_nsmul, ← mul_nsmul, add_right_inj]
  exact nsmul_eq_nsmul_iff_modEq

/-- C7 witness: the cross-key congruence criterion evaluated in the
concrete collaborator `Zc` at `k1 = 1`, `k2 = 6`, empty message. -/
theorem cross_key_verify_iff_witness :
    Zc.E • (1 : ZMod 5) = 0 ∧
      (((⟨.fq 1⟩ : PrivateKey).sign Zc [] (1 : ZMod 5)).map
          (fun sig =>
            (PublicKey.from_private (.priv ⟨.fq 6⟩) (1 : ZMod 5)).verify Zc sig [] 1)
          = some true ↔
        1 * hash_to_scalar Zc
            [.point (Point.mult (1 : ZMod 5)
               (hash_to_scalar Zc [.fe (.fq 1), .msg []])),
             .pub (PublicKey.from_private (.priv ⟨.fq 1⟩) (1 : ZMod 5)), .msg []] ≡
          6 * hash_to_scalar Zc
            [.point (Point.mult (1 : ZMod 5)
               (hash_to_scalar Zc [.fe (.fq 1), .msg []])),
             .point (PublicKey.from_private (.priv ⟨.fq 6⟩) (1 : ZMod 5)).p, .msg []]
          [MOD addOrderOf (1 : ZMod 5)]) :=
  ⟨by decide, cross_key_verify_iff Zc 1 (by decide) 1 6 []⟩

end EdDSA
